import Mathlib

/-!
Verification development for the `db.json` repository (src/src/index.ts and
the reduced module variant src/unnamed/part_000): a persistent key-value
store keeping one JSON document per key on disk.

Shallow embedding conventions:
* JSON documents are pure trees (`JsonValue`); JSON text encoding/decoding is
  an external collaborator assumed correct (spec section 1), so files hold
  either a decoded document or a `corrupt` marker (unreadable / invalid JSON).
* JSON numbers are embedded as integers.  The host runtime uses IEEE-754
  doubles, which are exact on the integer ranges exercised here; operations
  whose results leave the integers (inexact division, fractional exponents,
  Math.random) are marked `unmodeled` and are not used by any theorem.
* JavaScript dynamic values at the public interface are `JsKey`
  (null/undefined collapse to `knull`) and `Option JsonValue`
  (`none` models the JavaScript value undefined).
* The filesystem is an association list from full file paths to contents,
  plus the set of directories created so far.
-/

/-- A decoded JSON document: object, array, string, number, bool or null. -/
inductive JsonValue where
  | null : JsonValue
  | bool (b : Bool) : JsonValue
  | num (n : Int) : JsonValue
  | str (s : String) : JsonValue
  | arr (elems : List JsonValue) : JsonValue
  | obj (fields : List (String × JsonValue)) : JsonValue

/-- A JavaScript value used as a key argument: null/undefined (`knull`),
a string, or a number (e.g. the literal 42 passed where a key is expected). -/
inductive JsKey where
  | knull : JsKey
  | kstr (s : String) : JsKey
  | knum (n : Int) : JsKey
deriving DecidableEq

/-- The embedding of `key.toString()`: throws a TypeError (`none`) on
null/undefined, otherwise yields the string form. -/
def JsKey.strOf? : JsKey → Option String
  | .knull => none
  | .kstr s => some s
  | .knum n => some (toString n)

/-- lodash `isNil(key) or not isString(key)`, the guard of `set`. -/
def JsKey.invalidForSet : JsKey → Bool
  | .kstr _ => false
  | _ => true

/-- Contents of one backing file: a decoded JSON document, or bytes that are
missing/unreadable/not valid JSON (all three make `JSON.parse` throw). -/
inductive FileContent where
  | json (v : JsonValue) : FileContent
  | corrupt : FileContent

/-- The clone policy for `ensure` default values (spec section 4.8). -/
inductive CloneLevel where
  | none : CloneLevel
  | shallow : CloneLevel
  | deep : CloneLevel
deriving DecidableEq

/-- Errors surfaced synchronously to the caller.  `invalidKey` is the
SyntaxError "Keys must always be strings." raised by `set`; `missingDefault`
is the SyntaxError raised by `ensure`; `typeError` is a runtime TypeError
(calling toString on nil, calling .push on a non-array, reading a property
of undefined); `unmodeled` marks host behaviour outside this embedding
(non-integer float results, Math.random, proxy internals) and is reached by
no theorem below. -/
inductive DBErr where
  | invalidKey : DBErr
  | missingDefault : DBErr
  | typeError : DBErr
  | unmodeled : DBErr
deriving DecidableEq

/-- Construction options of the store (DBOptions in the source, with the
defaults of the `options` field initializer). -/
structure Options where
  dataDir : String
  cloneLevel : CloneLevel
  proxy : Bool

/-- Source defaults: dataDir "./data", cloneLevel "deep", proxy false. -/
def defaultOptions : Options := { dataDir := "./data", cloneLevel := .deep, proxy := false }

/-- The filesystem: files maps a full path to its contents (first match
wins), dirs is the set of directories known to exist. -/
structure State where
  files : List (String × FileContent)
  dirs : List String

/-- The empty filesystem. -/
def emptyState : State := { files := [], dirs := [] }

/-- First-match association lookup over the file table. -/
def findFile : List (String × FileContent) → String → Option FileContent
  | [], _ => none
  | (p, c) :: fs, q => if p = q then some c else findFile fs q

/-- fs.writeFileSync: overwrite the entry for a path, or create it. -/
def setFileList : List (String × FileContent) → String → FileContent → List (String × FileContent)
  | [], q, c => [(q, c)]
  | (p, c0) :: fs, q, c => if p = q then (p, c) :: fs else (p, c0) :: setFileList fs q c

def State.lookupFile (s : State) (p : String) : Option FileContent := findFile s.files p

/-- Split a character list at every occurrence of a separator character. -/
def splitOnChar (c : Char) : List Char → List (List Char)
  | [] => [[]]
  | x :: xs =>
    let r := splitOnChar c xs
    if x = c then [] :: r
    else
      match r with
      | [] => [[x]]
      | y :: ys => (x :: y) :: ys

/-- Dotted path expressions are split on the dot, per the nested-path
capability assumed by the spec (section 1). -/
def parsePath (p : String) : List String := (splitOnChar '.' p.data).map fun cs => ⟨cs⟩

/-- Join path segments back with slashes (the inverse of splitting on /). -/
def joinSlash : List String → String
  | [] => ""
  | [x] => x
  | x :: xs => x ++ "/" ++ joinSlash xs

/-- Does the string end in ".json"?  (String.endsWith over the char list.) -/
def endsWithJson (s : String) : Bool := List.isSuffixOf ".json".data s.data

/-- Numeric value of a decimal digit character, if it is one. -/
def charDigit? (c : Char) : Option Nat :=
  if '0' ≤ c ∧ c ≤ '9' then some (c.toNat - '0'.toNat) else none

/-- Accumulate the decimal value of a digit string. -/
def digitsVal : List Char → Nat → Option Nat
  | [], acc => some acc
  | c :: cs, acc =>
    match charDigit? c with
    | some d => digitsVal cs (acc * 10 + d)
    | none => none

/-- Is the path segment a canonical array index ("0", or digits without a
leading zero)?  Mirrors the index test of the nested-path capability. -/
def strIndex? (s : String) : Option Nat :=
  match s.data with
  | [] => none
  | ['0'] => some 0
  | '0' :: _ :: _ => none
  | cs => digitsVal cs 0

/-- Field lookup in a JSON object (first match). -/
def lookupField : List (String × JsonValue) → String → Option JsonValue
  | [], _ => none
  | (k, v) :: fs, f => if k = f then some v else lookupField fs f

/-- Field update in a JSON object: overwrite in place, or append a new field
(property insertion order of the host object model). -/
def setField : List (String × JsonValue) → String → JsonValue → List (String × JsonValue)
  | [], f, nv => [(f, nv)]
  | (k, v) :: fs, f, nv => if k = f then (k, nv) :: fs else (k, v) :: setField fs f nv

/-- Writing index i of an array: pad with nulls when i is past the end
(JSON.stringify renders the sparse holes of the host array as null). -/
def listSet (xs : List JsonValue) (i : Nat) (nv : JsonValue) : List JsonValue :=
  (xs ++ List.replicate (i + 1 - xs.length) JsonValue.null).set i nv

/-- One path segment of the nested-get capability (lodash get): a field of
an object, or an index of an array; anything else yields undefined. -/
def getSeg (v : JsonValue) (seg : String) : Option JsonValue :=
  match v with
  | .obj fs => lookupField fs seg
  | .arr xs =>
    match strIndex? seg with
    | some i => xs.get? i
    | none => none
  | _ => none

/-- Walk a parsed path through a document (lodash get on segments). -/
def jsGetSegs (v : JsonValue) : List String → Option JsonValue
  | [] => some v
  | seg :: rest =>
    match getSeg v seg with
    | some c => jsGetSegs c rest
    | none => none

/-- lodash get(doc, path): value at a dotted path, none for undefined. -/
def jsGet (v : JsonValue) (p : String) : Option JsonValue := jsGetSegs v (parsePath p)

/-- lodash get where the base itself may be undefined. -/
def jsGetOpt (v : Option JsonValue) (p : String) : Option JsonValue :=
  v.bind fun d => jsGet d p

def JsonValue.isContainer : JsonValue → Bool
  | .arr _ => true
  | .obj _ => true
  | _ => false

/-- One path segment of the nested-set capability: assign into an object or
at an array index; a non-index property assigned on an array is dropped by
the later JSON serialization, and assignment into a non-container is a
no-op (lodash set returns a non-object base unchanged). -/
def setSeg (v : JsonValue) (seg : String) (nv : JsonValue) : JsonValue :=
  match v with
  | .obj fs => .obj (setField fs seg nv)
  | .arr xs =>
    match strIndex? seg with
    | some i => .arr (listSet xs i nv)
    | none => .arr xs
  | prim => prim

/-- Does the next segment look like an array index (decides whether lodash
set materializes a missing intermediate as [] or as an object)? -/
def isIndexNext : List String → Bool
  | seg :: _ => (strIndex? seg).isSome
  | [] => false

/-- lodash set on segments: create or replace intermediate containers as
needed, then assign at the final segment. -/
def jsSetSegs (v : JsonValue) : List String → JsonValue → JsonValue
  | [], _ => v
  | seg :: rest, nv =>
    match rest with
    | [] => setSeg v seg nv
    | _ :: _ =>
      let child :=
        match getSeg v seg with
        | some c =>
          if c.isContainer then c
          else if isIndexNext rest then JsonValue.arr [] else JsonValue.obj []
        | none => if isIndexNext rest then JsonValue.arr [] else JsonValue.obj []
      setSeg v seg (jsSetSegs child rest nv)

/-- lodash set(doc, path, v). -/
def jsSet (v : JsonValue) (p : String) (nv : JsonValue) : JsonValue :=
  jsSetSegs v (parsePath p) nv

/-- lodash set where the base may be undefined (a nil base is returned
unchanged by lodash). -/
def jsSetOpt (v : Option JsonValue) (p : String) (nv : JsonValue) : Option JsonValue :=
  v.map fun d => jsSet d p nv

/-- lodash has(doc, path).  Documents decoded from JSON text cannot contain
undefined members, so own-property presence along the path coincides with
the corresponding get being defined. -/
def jsHas (v : JsonValue) (p : String) : Bool := (jsGet v p).isSome

/-- lodash isNil of a JavaScript value (undefined or null). -/
def jsIsNil : Option JsonValue → Bool
  | none => true
  | some .null => true
  | some _ => false

namespace JsonDB

/-- getPath: resolve(cwd, dataDir, key + ".json").  The absolutization done
by path.resolve is abstracted to concatenation under the configured data
directory (spec section 4.1: a pure function of root and key). -/
def getPath (o : Options) (key : String) : String :=
  o.dataDir ++ "/" ++ key ++ ".json"

/-- The directory computed in the catch branch of `get`: split the file path
on "/", drop every segment ending in ".json", join back. -/
def dirOf (dbPath : String) : String :=
  joinSlash (((splitOnChar '/' dbPath.data).map fun cs => (⟨cs⟩ : String)).filter
    fun x => !endsWithJson x)

/-- The catch branch of `get`: mkdirSync the containing directory if absent,
then writeFileSync the empty object document to the path. -/
def heal (s : State) (dbPath : String) : State :=
  { files := setFileList s.files dbPath (.json (.obj [])),
    dirs := if s.dirs.contains (dirOf dbPath) then s.dirs else dirOf dbPath :: s.dirs }

/-- Lines 119-130 of the source: JSON.parse(readFileSync(dbPath)), with the
self-healing catch branch on a missing, unreadable or invalid file. -/
def readDoc (o : Options) (s : State) (key : String) : JsonValue × State :=
  match s.lookupFile (getPath o key) with
  | some (.json d) => (d, s)
  | _ => (JsonValue.obj [], heal s (getPath o key))

/-- JsonDB.get.  A nil key returns the null sentinel before any filesystem
access; otherwise the key is stringified, the document is read (or healed
into existence), and the optional path is applied.  The proxy wrapper of
the source is value-transparent (it returns an object equal to the data
whose later mutations re-serialize; mutation interception is a reference
side channel outside this value-level embedding). -/
def getStr (o : Options) (s : State) (ks : String) (path : Option String) :
    Except DBErr (Option JsonValue) × State :=
  let r := readDoc o s ks
  match path with
  | some p => (.ok (jsGet r.1 p), r.2)
  | none => (.ok (some r.1), r.2)

/-- Dispatch of JsonDB.get on the key argument: the nil sentinel, then the
stringified-key body above. -/
def get (o : Options) (s : State) (key : JsKey) (path : Option String) :
    Except DBErr (Option JsonValue) × State :=
  match key with
  | .knull => (.ok (some .null), s)
  | .kstr ks => getStr o s ks path
  | .knum n => getStr o s (toString n) path

/-- JsonDB.set.  Rejects nil and non-string keys with the SyntaxError
"Keys must always be strings.", then reads the current document (line 150,
a full `get` with its initialization side effect), grafts the value at the
path (resetting a null document to an empty object first) or replaces the
document wholesale, serializes and writes the result, and returns it. -/
def nullGuard (v : JsonValue) : JsonValue :=
  match v with
  | .null => .obj []
  | d => d

/-- JsonDB.set, continued: the path branch resets a null document to an
empty object (the isNil check of line 152) before grafting. -/
def set (o : Options) (s : State) (key : JsKey) (value : JsonValue) (path : Option String) :
    Except DBErr JsonValue × State :=
  match key with
  | .kstr ks =>
    let r := readDoc o s ks
    let data :=
      match path with
      | some p => jsSet (nullGuard r.1) p value
      | none => value
    (.ok data,
      { r.2 with files := setFileList r.2.files (getPath o ks) (.json data) })
  | _ => (.error .invalidKey, s)

/-- JsonDB.has.  Stringifies the key first (a TypeError on nil keys); with
no path it only asks the filesystem whether the backing file exists, with a
path it reads the whole document (triggering initialization) and checks the
path with the nested-has capability. -/
def has (o : Options) (s : State) (key : JsKey) (path : Option String) :
    Except DBErr Bool × State :=
  match key.strOf? with
  | none => (.error .typeError, s)
  | some ks =>
    match path with
    | some p =>
      let r := readDoc o s ks
      (.ok (jsHas r.1 p), r.2)
    | none => (.ok (s.lookupFile (getPath o ks)).isSome, s)

/-- JsonDB.clone at the value level.  Pure trees make every clone level
extensionally the identity; the reference-level distinction between the
three levels (aliasing of the stored default) is modeled by the heap layer
below (`cloneHeap`). -/
def clone (level : CloneLevel) (v : JsonValue) : JsonValue :=
  match level with
  | .none => v
  | .shallow => match v with | .arr xs => .arr xs | .obj fs => .obj fs | x => x
  | .deep => v

/-- JsonDB.ensure.  Throws on a nil default; if the addressed location
exists, returns it unchanged; otherwise writes the default (cloned per the
configured level in the no-path branch) and returns it. -/
def ensure (o : Options) (s : State) (key : JsKey) (dflt : Option JsonValue)
    (path : Option String) : Except DBErr (Option JsonValue) × State :=
  if jsIsNil dflt then (.error .missingDefault, s)
  else
    match path with
    | some p =>
      match has o s key (some p) with
      | (.error e, s1) => (.error e, s1)
      | (.ok true, s1) => get o s1 key (some p)
      | (.ok false, s1) =>
        match dflt with
        | some d =>
          let st := set o s1 key d (some p)
          match st.1 with
          | .ok _ => (.ok (some d), st.2)
          | .error e => (.error e, st.2)
        | none => (.error .missingDefault, s1)
    | none =>
      match has o s key none with
      | (.error e, s1) => (.error e, s1)
      | (.ok true, s1) => get o s1 key none
      | (.ok false, s1) =>
        match dflt with
        | some d =>
          let c := clone o.cloneLevel d
          let st := set o s1 key c none
          match st.1 with
          | .ok _ => (.ok (some c), st.2)
          | .error e => (.error e, st.2)
        | none => (.error .missingDefault, s1)

/-- JsonDB.push, embedded exactly as written: `data = get(key, path)` (the
value already resolved at the path), then in the path branch a second
lookup of the same path inside that sub-value, an append there, and a
whole-document `set(key, data)` without the path. -/
def push (o : Options) (s : State) (key : JsKey) (val : JsonValue) (path : Option String) :
    Except DBErr (Option JsonValue) × State :=
  match get o s key path with
  | (.error e, s1) => (.error e, s1)
  | (.ok data, s1) =>
    match path with
    | some p =>
      match jsGetOpt data p with
      | some (.arr xs) =>
        let newArr := JsonValue.arr (xs ++ [val])
        match jsSetOpt data p newArr with
        | some d2 =>
          let st := set o s1 key d2 none
          (match st.1 with
           | .ok _ => (.ok (some d2), st.2)
           | .error e => (.error e, st.2))
        | none => (.error .typeError, s1)
      | _ => (.error .typeError, s1)
    | none =>
      match data with
      | some (.arr xs) =>
        let newArr := JsonValue.arr (xs ++ [val])
        let st := set o s1 key newArr none
        (match st.1 with
         | .ok _ => (.ok (some newArr), st.2)
         | .error e => (.error e, st.2))
      | _ => (.error .typeError, s1)

/-- Result of the private mathOp switch: a numeric result, the null of the
default branch (an unknown operator), or host behaviour outside the integer
embedding (inexact division, fractional or negative exponents, modulo by
zero, Math.random). -/
inductive MathResult where
  | val (r : Int) : MathResult
  | nullResult : MathResult
  | unmodeled : MathResult
deriving DecidableEq

/-- JsonDB.mathOp: the operator table.  Division is exact integer division
when it is exact (JavaScript floats agree there); % is the truncated
remainder of the host; ^ is Math.pow. -/
def mathOp (base : Int) (op : String) (opand : Int) : MathResult :=
  match op with
  | "add" | "addition" | "+" => .val (base + opand)
  | "sub" | "subtract" | "-" => .val (base - opand)
  | "mult" | "multiply" | "*" => .val (base * opand)
  | "div" | "divide" | "/" =>
    if opand ≠ 0 ∧ Int.tmod base opand = 0 then .val (Int.tdiv base opand) else .unmodeled
  | "exp" | "exponent" | "^" =>
    if 0 ≤ opand then .val (base ^ opand.toNat) else .unmodeled
  | "mod" | "modulo" | "%" =>
    if opand ≠ 0 then .val (Int.tmod base opand) else .unmodeled
  | "rand" | "random" => .unmodeled
  | _ => .nullResult

/-- JsonDB.math: read the value at the location, apply the operator table,
write the result back at the same location.  A non-numeric base would go
through host numeric coercion, which is outside the integer embedding. -/
def math (o : Options) (s : State) (key : JsKey) (op : String) (opand : Int)
    (path : Option String) : Except DBErr JsonValue × State :=
  match get o s key path with
  | (.error e, s1) => (.error e, s1)
  | (.ok data, s1) =>
    match data with
    | some (.num base) =>
      match mathOp base op opand with
      | .val r => set o s1 key (.num r) path
      | .nullResult => set o s1 key .null path
      | .unmodeled => (.error .unmodeled, s1)
    | _ => (.error .unmodeled, s1)

end JsonDB

/-!
Heap layer.  The clone policy of `ensure` (spec sections 4.5 and 4.8) is a
statement about object identity, not about values: with cloneLevel "deep"
the stored document must not alias the object the caller passed.  To state
it we model the caller side of the runtime as a mutable heap of containers
addressed by natural numbers, with JSON serialization (the write path of
`set`) turning a heap value into a pure `JsonValue` tree at write time.
-/

/-- A runtime JavaScript value: a primitive, or a reference into the heap. -/
inductive JsV where
  | vnull : JsV
  | vbool (b : Bool) : JsV
  | vnum (n : Int) : JsV
  | vstr (s : String) : JsV
  | vref (a : Nat) : JsV
deriving DecidableEq

/-- A heap cell: an object with ordered fields, or an array. -/
inductive HCell where
  | hobj (fields : List (String × JsV)) : HCell
  | harr (elems : List JsV) : HCell
deriving DecidableEq

/-- The caller heap: addresses to cells, first match wins. -/
abbrev Heap := List (Nat × HCell)

/-- Address lookup in a heap. -/
def hfind : Heap → Nat → Option HCell
  | [], _ => none
  | (b, c) :: h, a => if b = a then some c else hfind h a

/-- Largest address present in a heap. -/
def maxAddr (h : Heap) : Nat := h.foldr (fun p m => max p.1 m) 0

/-- An address not present in the heap. -/
def freshAddr (h : Heap) : Nat := maxAddr h + 1

/-- Map a fallible function over a list, failing if any element fails. -/
def mapOption (f : α → Option β) : List α → Option (List β)
  | [] => some []
  | x :: xs =>
    match f x, mapOption f xs with
    | some y, some ys => some (y :: ys)
    | _, _ => none

/-- Map a fallible function over the values of a field list. -/
def mapOptionField (f : α → Option β) : List (String × α) → Option (List (String × β))
  | [] => some []
  | (k, x) :: xs =>
    match f x, mapOptionField f xs with
    | some y, some ys => some ((k, y) :: ys)
    | _, _ => none

/-- JSON.stringify on a runtime value, fueled: serialize a primitive
directly, dereference and recurse on containers.  Exhausted fuel (only
possible on cyclic structures, where stringify throws) and dangling
references yield none. -/
def serializeJs (h : Heap) : Nat → JsV → Option JsonValue
  | _, .vnull => some .null
  | _, .vbool b => some (.bool b)
  | _, .vnum n => some (.num n)
  | _, .vstr s => some (.str s)
  | 0, .vref _ => none
  | fuel + 1, .vref a =>
    match hfind h a with
    | some (.harr xs) => (mapOption (serializeJs h fuel) xs).map .arr
    | some (.hobj fs) => (mapOptionField (serializeJs h fuel) fs).map .obj
    | none => none

/-- Thread a heap-transforming function over a list of values. -/
def cloneListWith (f : Heap → JsV → Heap × JsV) : Heap → List JsV → Heap × List JsV
  | h, [] => (h, [])
  | h, x :: xs =>
    let p := f h x
    let q := cloneListWith f p.1 xs
    (q.1, p.2 :: q.2)

/-- Thread a heap-transforming function over a field list. -/
def cloneFieldsWith (f : Heap → JsV → Heap × JsV) :
    Heap → List (String × JsV) → Heap × List (String × JsV)
  | h, [] => (h, [])
  | h, (k, x) :: xs =>
    let p := f h x
    let q := cloneFieldsWith f p.1 xs
    (q.1, (k, p.2) :: q.2)

/-- lodash cloneDeep: copy the reachable graph into fresh addresses,
returning the extended heap and the new root.  Primitives are returned as
is; the fuel is only exhausted on cyclic structures, which no serializable
value contains, and then the value is returned unduplicated. -/
def cloneDeepJs : Nat → Heap → JsV → Heap × JsV
  | 0, h, v => (h, v)
  | fuel + 1, h, v =>
    match v with
    | .vref a =>
      match hfind h a with
      | some (.harr xs) =>
        let p := cloneListWith (cloneDeepJs fuel) h xs
        ((freshAddr p.1, .harr p.2) :: p.1, .vref (freshAddr p.1))
      | some (.hobj fs) =>
        let p := cloneFieldsWith (cloneDeepJs fuel) h fs
        ((freshAddr p.1, .hobj p.2) :: p.1, .vref (freshAddr p.1))
      | none => (h, v)
    | prim => (h, prim)

/-- lodash clone: copy only the top container; nested references stay
shared.  Primitives are returned as is. -/
def cloneShallowJs (h : Heap) (v : JsV) : Heap × JsV :=
  match v with
  | .vref a =>
    match hfind h a with
    | some c => ((freshAddr h, c) :: h, .vref (freshAddr h))
    | none => (h, v)
  | prim => (h, prim)

/-- JsonDB.clone at the reference level, per the configured clone level. -/
def cloneHeap (level : CloneLevel) (h : Heap) (v : JsV) : Heap × JsV :=
  match level with
  | .none => (h, v)
  | .shallow => cloneShallowJs h v
  | .deep => cloneDeepJs (h.length + 1) h v

/-- JSON.stringify with enough fuel for any acyclic value of the heap (a
reference chain without repetition is no longer than the heap). -/
def stringifyJs (h : Heap) (v : JsV) : Option JsonValue :=
  serializeJs h (h.length + 1) v

/-- lodash isNil on a runtime value. -/
def jsvIsNil : JsV → Bool
  | .vnull => true
  | _ => false

/-- The full runtime picture: the store filesystem plus the caller heap. -/
structure World where
  db : State
  heap : Heap

/-- Overwrite one field (or array slot) of the cell at an address: the
mutation "caller changes the object after the call returns". -/
def writeCell (c : HCell) (f : String) (v : JsV) : HCell :=
  match c with
  | .hobj fs =>
    .hobj (fs.map fun kv => if kv.1 = f then (kv.1, v) else kv)
  | .harr xs =>
    match strIndex? f with
    | some i => .harr (xs.set i v)
    | none => .harr xs

/-- Mutate the caller heap at one address; the filesystem is untouched
because a property assignment is not a store operation. -/
def mutateWorld (w : World) (a : Nat) (f : String) (v : JsV) : World :=
  { w with heap := w.heap.map fun bc => if bc.1 = a then (bc.1, writeCell bc.2 f v) else bc }

/-- JsonDB.ensure at the reference level: the same control flow as `ensure`
above, with the default value living in the caller heap and every write
serializing it at write time.  In the path branch the source grafts the
raw reference into the freshly read document and stringifies; composed,
that writes the serialization of the default at the path.  In the no-path
branch the source clones per the configured level first.  The value the
call returns is omitted (it is the default or its clone; the claims below
concern the stored document). -/
def ensureH (o : Options) (w : World) (key : JsKey) (d : JsV) (path : Option String) :
    Except DBErr Unit × World :=
  if jsvIsNil d then (.error .missingDefault, w)
  else
    match path with
    | some p =>
      match JsonDB.has o w.db key (some p) with
      | (.error e, s1) => (.error e, { w with db := s1 })
      | (.ok true, s1) => (.ok (), { w with db := (JsonDB.get o s1 key (some p)).2 })
      | (.ok false, s1) =>
        match stringifyJs w.heap d with
        | some dv =>
          let st := JsonDB.set o s1 key dv (some p)
          match st.1 with
          | .ok _ => (.ok (), { w with db := st.2 })
          | .error e => (.error e, { w with db := st.2 })
        | none => (.error .unmodeled, { w with db := s1 })
    | none =>
      match JsonDB.has o w.db key none with
      | (.error e, s1) => (.error e, { w with db := s1 })
      | (.ok true, s1) => (.ok (), { w with db := (JsonDB.get o s1 key none).2 })
      | (.ok false, s1) =>
        let c := cloneHeap o.cloneLevel w.heap d
        match stringifyJs c.1 c.2 with
        | some cv =>
          let st := JsonDB.set o s1 key cv none
          match st.1 with
          | .ok _ => (.ok (), { db := st.2, heap := c.1 })
          | .error e => (.error e, { db := st.2, heap := c.1 })
        | none => (.error .unmodeled, { db := s1, heap := c.1 })


/-- The value stored at an addressed location of a document: the whole
document with no path, or the nested-get at the path. -/
def valueAtLoc (doc : JsonValue) : Option String → Option JsonValue
  | none => some doc
  | some p => jsGet doc p

/-- The document after writing r at an addressed location. -/
def numWrittenAt (doc : JsonValue) (p? : Option String) (r : Int) : JsonValue :=
  match p? with
  | none => .num r
  | some p => jsSet doc p (.num r)

/-- Did an operation fail, and with which error? -/
def errOf : Except DBErr α → Option DBErr
  | .error e => some e
  | .ok _ => none

/-- One invocation of a public operation of the store (spec section 6). -/
inductive DBOp where
  | doGet (key : JsKey) (path : Option String) : DBOp
  | doSet (key : JsKey) (value : JsonValue) (path : Option String) : DBOp
  | doHas (key : JsKey) (path : Option String) : DBOp
  | doEnsure (key : JsKey) (dflt : Option JsonValue) (path : Option String) : DBOp
  | doPush (key : JsKey) (value : JsonValue) (path : Option String) : DBOp
  | doMath (key : JsKey) (op : String) (opand : Int) (path : Option String) : DBOp

/-- Run one public operation, keeping only its error status and the
resulting filesystem. -/
def runOp (o : Options) (op : DBOp) (s : State) : Option DBErr × State :=
  match op with
  | .doGet k p => let r := JsonDB.get o s k p; (errOf r.1, r.2)
  | .doSet k v p => let r := JsonDB.set o s k v p; (errOf r.1, r.2)
  | .doHas k p => let r := JsonDB.has o s k p; (errOf r.1, r.2)
  | .doEnsure k d p => let r := JsonDB.ensure o s k d p; (errOf r.1, r.2)
  | .doPush k v p => let r := JsonDB.push o s k v p; (errOf r.1, r.2)
  | .doMath k op2 m p => let r := JsonDB.math o s k op2 m p; (errOf r.1, r.2)

/-- Heap extension: every address readable in the first heap reads the same
cell in the second (fresh allocations only). -/
def HExt (h h2 : Heap) : Prop := ∀ a c, hfind h a = some c → hfind h2 a = some c

/-!
Lemmas: the value-level store.
-/

theorem findFile_setFileList_self (fs : List (String × FileContent)) (p : String)
    (c : FileContent) : findFile (setFileList fs p c) p = some c := by
  induction fs with
  | nil => simp [setFileList, findFile]
  | cons hd tl ih =>
    by_cases h : hd.1 = p
    · simp [setFileList, h, findFile]
    · simp [setFileList, h, findFile, ih]

theorem JsonDB.readDoc_state (o : Options) (s : State) (ks : String) :
    (JsonDB.readDoc o s ks).2 = s ∨ (JsonDB.readDoc o s ks).2 = JsonDB.heal s (JsonDB.getPath o ks) := by
  unfold JsonDB.readDoc
  rcases h : s.lookupFile (JsonDB.getPath o ks) with _ | c
  · right; rfl
  · cases c with
    | json d => left; rfl
    | corrupt => right; rfl

theorem JsonDB.readDoc_of_json (o : Options) (s : State) (ks : String) (d : JsonValue)
    (h : s.lookupFile (JsonDB.getPath o ks) = some (.json d)) :
    JsonDB.readDoc o s ks = (d, s) := by
  unfold JsonDB.readDoc
  rw [h]

theorem getStr_eq (o : Options) (s : State) (ks : String) (p : Option String) :
    ∃ d s2, JsonDB.getStr o s ks p = (.ok d, s2) ∧
      (s2 = s ∨ s2 = JsonDB.heal s (JsonDB.getPath o ks)) := by
  unfold JsonDB.getStr
  cases p with
  | none => exact ⟨some (JsonDB.readDoc o s ks).1, (JsonDB.readDoc o s ks).2, rfl, JsonDB.readDoc_state o s ks⟩
  | some q => exact ⟨jsGet (JsonDB.readDoc o s ks).1 q, (JsonDB.readDoc o s ks).2, rfl, JsonDB.readDoc_state o s ks⟩

theorem get_eq (o : Options) (s : State) (key : JsKey) (p : Option String) :
    ∃ d s2, JsonDB.get o s key p = (.ok d, s2) ∧
      (s2 = s ∨ ∃ ks, s2 = JsonDB.heal s (JsonDB.getPath o ks)) := by
  cases key with
  | knull => exact ⟨some .null, s, rfl, .inl rfl⟩
  | kstr ks =>
    obtain ⟨d, s2, h1, h2⟩ := getStr_eq o s ks p
    exact ⟨d, s2, h1, h2.imp id fun h => ⟨ks, h⟩⟩
  | knum n =>
    obtain ⟨d, s2, h1, h2⟩ := getStr_eq o s (toString n) p
    exact ⟨d, s2, h1, h2.imp id fun h => ⟨toString n, h⟩⟩

theorem set_kstr_none (o : Options) (s : State) (ks : String) (v : JsonValue) :
    JsonDB.set o s (.kstr ks) v none =
      (.ok v, { (JsonDB.readDoc o s ks).2 with
        files := setFileList (JsonDB.readDoc o s ks).2.files (JsonDB.getPath o ks) (.json v) }) := rfl

theorem set_err_state (o : Options) (s : State) (key : JsKey) (v : JsonValue)
    (p : Option String) (e : DBErr) (h : (JsonDB.set o s key v p).1 = .error e) :
    (JsonDB.set o s key v p).2 = s := by
  cases key with
  | knull => rfl
  | knum n => rfl
  | kstr ks =>
    exfalso
    unfold JsonDB.set at h
    cases p <;> simp at h

theorem set_lookup_self (o : Options) (s : State) (ks : String) (v : JsonValue) :
    ((JsonDB.set o s (.kstr ks) v none).2).lookupFile (JsonDB.getPath o ks) =
      some (.json v) := by
  rw [set_kstr_none]
  exact findFile_setFileList_self _ _ _

theorem has_err (o : Options) (s : State) (key : JsKey) (p : Option String) (e : DBErr)
    (h : (JsonDB.has o s key p).1 = .error e) : key = .knull ∧ (JsonDB.has o s key p).2 = s := by
  cases key with
  | knull => exact ⟨rfl, rfl⟩
  | kstr ks =>
    exfalso
    unfold JsonDB.has at h
    cases p <;> simp [JsKey.strOf?] at h
  | knum n =>
    exfalso
    unfold JsonDB.has at h
    cases p <;> simp [JsKey.strOf?] at h

theorem has_state (o : Options) (s : State) (key : JsKey) (p : Option String) :
    (JsonDB.has o s key p).2 = s ∨
      ∃ ks, (JsonDB.has o s key p).2 = JsonDB.heal s (JsonDB.getPath o ks) := by
  cases key with
  | knull => exact .inl rfl
  | kstr ks =>
    unfold JsonDB.has
    cases p with
    | none => exact .inl rfl
    | some q =>
      simp only [JsKey.strOf?]
      exact (JsonDB.readDoc_state o s ks).imp id fun h => ⟨ks, h⟩
  | knum n =>
    unfold JsonDB.has
    cases p with
    | none => exact .inl rfl
    | some q =>
      simp only [JsKey.strOf?]
      exact (JsonDB.readDoc_state o s (toString n)).imp id fun h => ⟨toString n, h⟩

/-!
Lemmas: the nested-path capability.  Writing at an existing location makes
a later read at that location yield the written value.
-/

theorem lookupField_setField (fs : List (String × JsonValue)) (f : String)
    (c nv : JsonValue) (h : lookupField fs f = some c) :
    lookupField (setField fs f nv) f = some nv := by
  induction fs with
  | nil => simp [lookupField] at h
  | cons hd tl ih =>
    by_cases hf : hd.1 = f
    · simp [setField, hf, lookupField]
    · simp [lookupField, hf] at h
      simp [setField, hf, lookupField, ih h]

theorem get?_some_lt {xs : List JsonValue} {i : Nat} {c : JsonValue}
    (h : xs.get? i = some c) : i < xs.length := by
  induction xs generalizing i with
  | nil => simp [List.get?] at h
  | cons a tl ih =>
    cases i with
    | zero => simp
    | succ j =>
      simp only [List.get?] at h
      exact Nat.succ_lt_succ (ih h)

theorem get?_set_self (xs : List JsonValue) (i : Nat) (nv : JsonValue)
    (h : i < xs.length) : (xs.set i nv).get? i = some nv := by
  induction xs generalizing i with
  | nil => simp at h
  | cons a tl ih =>
    cases i with
    | zero => rfl
    | succ j =>
      simp only [List.set, List.get?]
      exact ih j (by simpa using h)

theorem getSeg_setSeg (v : JsonValue) (seg : String) (c nv : JsonValue)
    (h : getSeg v seg = some c) : getSeg (setSeg v seg nv) seg = some nv := by
  cases v with
  | obj fs =>
    simp only [getSeg] at h
    simp only [setSeg, getSeg]
    exact lookupField_setField fs seg c nv h
  | arr xs =>
    simp only [getSeg] at h
    rcases hi : strIndex? seg with _ | i
    · rw [hi] at h; exact absurd h (by simp)
    · rw [hi] at h
      have hlt := get?_some_lt h
      simp only [setSeg, getSeg, hi, listSet]
      have hz : i + 1 - xs.length = 0 := Nat.sub_eq_zero_of_le hlt
      rw [hz]
      simp only [List.replicate, List.append_nil]
      exact get?_set_self xs i nv hlt
  | null => simp [getSeg] at h
  | bool b => simp [getSeg] at h
  | num n => simp [getSeg] at h
  | str s => simp [getSeg] at h

theorem jsGetSegs_container {c : JsonValue} {r : String} {rs : List String}
    {x : JsonValue} (h : jsGetSegs c (r :: rs) = some x) : c.isContainer = true := by
  cases c <;> simp [jsGetSegs, getSeg, JsonValue.isContainer] at h ⊢

theorem jsGetSegs_jsSetSegs (segs : List String) :
    ∀ v oldv nv, segs ≠ [] → jsGetSegs v segs = some oldv →
      jsGetSegs (jsSetSegs v segs nv) segs = some nv := by
  induction segs with
  | nil => intro v oldv nv hne; exact absurd rfl hne
  | cons seg rest ih =>
    intro v oldv nv _ h
    simp only [jsGetSegs] at h
    rcases hg : getSeg v seg with _ | c
    · rw [hg] at h; exact absurd h (by simp)
    · rw [hg] at h
      cases rest with
      | nil =>
        have h2 := getSeg_setSeg v seg c nv hg
        simp [jsSetSegs, jsGetSegs, h2]
      | cons r rs =>
        have hc := jsGetSegs_container h
        have hset : jsSetSegs v (seg :: r :: rs) nv
            = setSeg v seg (jsSetSegs c (r :: rs) nv) := by
          simp [jsSetSegs, hg, hc]
        have h2 := getSeg_setSeg v seg c (jsSetSegs c (r :: rs) nv) hg
        rw [hset]
        simp only [jsGetSegs, h2]
        have := ih c oldv nv (by simp) h
        simpa [jsGetSegs] using this

theorem splitOnChar_ne_nil (c : Char) (l : List Char) : splitOnChar c l ≠ [] := by
  cases l with
  | nil => simp [splitOnChar]
  | cons x xs =>
    simp only [splitOnChar]
    rcases h : splitOnChar c xs with _ | ⟨y, ys⟩
    · by_cases hx : x = c <;> simp [hx]
    · by_cases hx : x = c <;> simp [hx]

theorem parsePath_ne_nil (p : String) : parsePath p ≠ [] := by
  unfold parsePath
  intro h
  exact splitOnChar_ne_nil '.' p.data (by simpa using h)

theorem jsGet_jsSet (doc : JsonValue) (p : String) (oldv nv : JsonValue)
    (h : jsGet doc p = some oldv) : jsGet (jsSet doc p nv) p = some nv := by
  unfold jsGet at h
  unfold jsGet jsSet
  exact jsGetSegs_jsSetSegs (parsePath p) doc oldv nv (parsePath_ne_nil p) h

theorem jsGet_container {doc : JsonValue} {p : String} {x : JsonValue}
    (h : jsGet doc p = some x) : doc.isContainer = true := by
  unfold jsGet at h
  rcases hp : parsePath p with _ | ⟨r, rs⟩
  · exact absurd hp (parsePath_ne_nil p)
  · rw [hp] at h
    exact jsGetSegs_container h

/-!
Lemmas: the heap layer.  Serialization is stable under fresh heap
extension and more fuel, and both clone levels serialize to the same tree
as the original value.
-/

theorem HExt_refl (h : Heap) : HExt h h := fun _ _ hf => hf

theorem HExt_trans {h1 h2 h3 : Heap} (a : HExt h1 h2) (b : HExt h2 h3) : HExt h1 h3 :=
  fun x c hf => b x c (a x c hf)

theorem hfind_le_maxAddr {h : Heap} {a : Nat} {c : HCell} (hf : hfind h a = some c) :
    a ≤ maxAddr h := by
  induction h with
  | nil => simp [hfind] at hf
  | cons hd tl ih =>
    simp only [hfind] at hf
    have hmax : maxAddr (hd :: tl) = max hd.1 (maxAddr tl) := rfl
    by_cases hb : hd.1 = a
    · rw [hmax, ← hb]; exact Nat.le_max_left _ _
    · rw [if_neg hb] at hf
      rw [hmax]
      exact le_trans (ih hf) (Nat.le_max_right _ _)

theorem HExt_cons_fresh {h : Heap} {b : Nat} {c : HCell} (hb : maxAddr h < b) :
    HExt h ((b, c) :: h) := by
  intro a c0 hf
  have ha := hfind_le_maxAddr hf
  simp only [hfind]
  rw [if_neg (by omega)]
  exact hf

theorem mapOption_mono {f g : α → Option β}
    (hfg : ∀ x y, f x = some y → g x = some y) :
    ∀ xs ys, mapOption f xs = some ys → mapOption g xs = some ys := by
  intro xs
  induction xs with
  | nil => intro ys h; exact h
  | cons x xs ih =>
    intro ys h
    simp only [mapOption] at h ⊢
    rcases hx : f x with _ | y
    · rw [hx] at h; exact absurd h (by simp)
    · rw [hx] at h
      rcases hxs : mapOption f xs with _ | ys0
      · rw [hxs] at h; exact absurd h (by simp)
      · rw [hxs] at h
        rw [hfg x y hx, ih ys0 hxs]
        exact h

theorem mapOptionField_mono {f g : α → Option β}
    (hfg : ∀ x y, f x = some y → g x = some y) :
    ∀ xs ys, mapOptionField f xs = some ys → mapOptionField g xs = some ys := by
  intro xs
  induction xs with
  | nil => intro ys h; exact h
  | cons kx xs ih =>
    intro ys h
    simp only [mapOptionField] at h ⊢
    rcases hx : f kx.2 with _ | y
    · rw [hx] at h; exact absurd h (by simp)
    · rw [hx] at h
      rcases hxs : mapOptionField f xs with _ | ys0
      · rw [hxs] at h; exact absurd h (by simp)
      · rw [hxs] at h
        rw [hfg kx.2 y hx, ih ys0 hxs]
        exact h

theorem serializeJs_vnull (h : Heap) (fuel : Nat) :
    serializeJs h fuel .vnull = some .null := by cases fuel <;> rfl

theorem serializeJs_vbool (h : Heap) (fuel : Nat) (b : Bool) :
    serializeJs h fuel (.vbool b) = some (.bool b) := by cases fuel <;> rfl

theorem serializeJs_vnum (h : Heap) (fuel : Nat) (n : Int) :
    serializeJs h fuel (.vnum n) = some (.num n) := by cases fuel <;> rfl

theorem serializeJs_vstr (h : Heap) (fuel : Nat) (s : String) :
    serializeJs h fuel (.vstr s) = some (.str s) := by cases fuel <;> rfl

theorem serializeJs_hext {h h2 : Heap} (hext : HExt h h2) :
    ∀ fuel v j, serializeJs h fuel v = some j → serializeJs h2 fuel v = some j := by
  intro fuel
  induction fuel with
  | zero =>
    intro v j hj
    cases v with
    | vref a => simp [serializeJs] at hj
    | vnull => rw [serializeJs_vnull] at hj ⊢; exact hj
    | vbool b => rw [serializeJs_vbool] at hj ⊢; exact hj
    | vnum n => rw [serializeJs_vnum] at hj ⊢; exact hj
    | vstr s => rw [serializeJs_vstr] at hj ⊢; exact hj
  | succ n ih =>
    intro v j hj
    cases v with
    | vnull => rw [serializeJs_vnull] at hj ⊢; exact hj
    | vbool b => rw [serializeJs_vbool] at hj ⊢; exact hj
    | vnum m => rw [serializeJs_vnum] at hj ⊢; exact hj
    | vstr s => rw [serializeJs_vstr] at hj ⊢; exact hj
    | vref a =>
      simp only [serializeJs] at hj ⊢
      rcases hf : hfind h a with _ | cell
      · rw [hf] at hj; exact absurd hj (by simp)
      · rw [hf] at hj
        rw [hext a cell hf]
        cases cell with
        | harr xs =>
          simp only at hj ⊢
          rcases hm : mapOption (serializeJs h n) xs with _ | js
          · rw [hm] at hj; exact absurd hj (by simp)
          · rw [hm] at hj
            rw [mapOption_mono (fun x y hx => ih x y hx) xs js hm]
            exact hj
        | hobj fs =>
          simp only at hj ⊢
          rcases hm : mapOptionField (serializeJs h n) fs with _ | js
          · rw [hm] at hj; exact absurd hj (by simp)
          · rw [hm] at hj
            rw [mapOptionField_mono (fun x y hx => ih x y hx) fs js hm]
            exact hj

theorem serializeJs_fuel_mono {h : Heap} :
    ∀ fuel fuel2 v j, fuel ≤ fuel2 → serializeJs h fuel v = some j →
      serializeJs h fuel2 v = some j := by
  intro fuel
  induction fuel with
  | zero =>
    intro fuel2 v j _ hj
    cases v with
    | vref a => simp [serializeJs] at hj
    | vnull => rw [serializeJs_vnull] at hj ⊢; exact hj
    | vbool b => rw [serializeJs_vbool] at hj ⊢; exact hj
    | vnum n => rw [serializeJs_vnum] at hj ⊢; exact hj
    | vstr s => rw [serializeJs_vstr] at hj ⊢; exact hj
  | succ n ih =>
    intro fuel2 v j hle hj
    cases v with
    | vnull => rw [serializeJs_vnull] at hj ⊢; exact hj
    | vbool b => rw [serializeJs_vbool] at hj ⊢; exact hj
    | vnum m => rw [serializeJs_vnum] at hj ⊢; exact hj
    | vstr s => rw [serializeJs_vstr] at hj ⊢; exact hj
    | vref a =>
      cases fuel2 with
      | zero => omega
      | succ m =>
        have hnm : n ≤ m := Nat.le_of_succ_le_succ hle
        simp only [serializeJs] at hj ⊢
        rcases hf : hfind h a with _ | cell
        · rw [hf] at hj; exact absurd hj (by simp)
        · rw [hf] at hj
          cases cell with
          | harr xs =>
            simp only at hj ⊢
            rcases hm : mapOption (serializeJs h n) xs with _ | js
            · rw [hm] at hj; exact absurd hj (by simp)
            · rw [hm] at hj
              rw [mapOption_mono (fun x y hx => ih m x y hnm hx) xs js hm]
              exact hj
          | hobj fs =>
            simp only at hj ⊢
            rcases hm : mapOptionField (serializeJs h n) fs with _ | js
            · rw [hm] at hj; exact absurd hj (by simp)
            · rw [hm] at hj
              rw [mapOptionField_mono (fun x y hx => ih m x y hnm hx) fs js hm]
              exact hj

theorem hfind_cons_self (b : Nat) (c : HCell) (h : Heap) :
    hfind ((b, c) :: h) b = some c := by simp [hfind]

theorem cloneListWith_hext (f : Heap → JsV → Heap × JsV)
    (hf : ∀ h v, HExt h (f h v).1) :
    ∀ xs h, HExt h (cloneListWith f h xs).1 := by
  intro xs
  induction xs with
  | nil => intro h; exact HExt_refl h
  | cons x xs ih =>
    intro h
    simp only [cloneListWith]
    exact HExt_trans (hf h x) (ih (f h x).1)

theorem cloneFieldsWith_hext (f : Heap → JsV → Heap × JsV)
    (hf : ∀ h v, HExt h (f h v).1) :
    ∀ xs h, HExt h (cloneFieldsWith f h xs).1 := by
  intro xs
  induction xs with
  | nil => intro h; exact HExt_refl h
  | cons x xs ih =>
    intro h
    simp only [cloneFieldsWith]
    exact HExt_trans (hf h x.2) (ih (f h x.2).1)

theorem cloneDeepJs_hext : ∀ fuel h v, HExt h (cloneDeepJs fuel h v).1 := by
  intro fuel
  induction fuel with
  | zero => intro h v; exact HExt_refl h
  | succ n ih =>
    intro h v
    cases v with
    | vref a =>
      simp only [cloneDeepJs]
      rcases hf : hfind h a with _ | cell
      · exact HExt_refl h
      · cases cell with
        | harr xs =>
          simp only
          exact HExt_trans (cloneListWith_hext (cloneDeepJs n) ih xs h)
            (HExt_cons_fresh (Nat.lt_succ_self _))
        | hobj fs =>
          simp only
          exact HExt_trans (cloneFieldsWith_hext (cloneDeepJs n) ih fs h)
            (HExt_cons_fresh (Nat.lt_succ_self _))
    | vnull => exact HExt_refl h
    | vbool b => exact HExt_refl h
    | vnum m => exact HExt_refl h
    | vstr s => exact HExt_refl h

theorem cloneListWith_len (f : Heap → JsV → Heap × JsV)
    (hf : ∀ h v, h.length ≤ (f h v).1.length) :
    ∀ xs h, h.length ≤ (cloneListWith f h xs).1.length := by
  intro xs
  induction xs with
  | nil => intro h; exact Nat.le_refl _
  | cons x xs ih =>
    intro h
    simp only [cloneListWith]
    exact le_trans (hf h x) (ih (f h x).1)

theorem cloneFieldsWith_len (f : Heap → JsV → Heap × JsV)
    (hf : ∀ h v, h.length ≤ (f h v).1.length) :
    ∀ xs h, h.length ≤ (cloneFieldsWith f h xs).1.length := by
  intro xs
  induction xs with
  | nil => intro h; exact Nat.le_refl _
  | cons x xs ih =>
    intro h
    simp only [cloneFieldsWith]
    exact le_trans (hf h x.2) (ih (f h x.2).1)

theorem cloneDeepJs_len : ∀ fuel h v, h.length ≤ (cloneDeepJs fuel h v).1.length := by
  intro fuel
  induction fuel with
  | zero => intro h v; exact Nat.le_refl _
  | succ n ih =>
    intro h v
    cases v with
    | vref a =>
      simp only [cloneDeepJs]
      rcases hf : hfind h a with _ | cell
      · exact Nat.le_refl _
      · cases cell with
        | harr xs =>
          simp only [List.length_cons]
          exact le_trans (cloneListWith_len (cloneDeepJs n) ih xs h) (Nat.le_succ _)
        | hobj fs =>
          simp only [List.length_cons]
          exact le_trans (cloneFieldsWith_len (cloneDeepJs n) ih fs h) (Nat.le_succ _)
    | vnull => exact Nat.le_refl _
    | vbool b => exact Nat.le_refl _
    | vnum m => exact Nat.le_refl _
    | vstr s => exact Nat.le_refl _

theorem cloneShallowJs_len (h : Heap) (v : JsV) :
    h.length ≤ (cloneShallowJs h v).1.length := by
  cases v with
  | vref a =>
    simp only [cloneShallowJs]
    rcases hf : hfind h a with _ | cell
    · exact Nat.le_refl _
    · simp
  | vnull => exact Nat.le_refl _
  | vbool b => exact Nat.le_refl _
  | vnum m => exact Nat.le_refl _
  | vstr s => exact Nat.le_refl _

theorem cloneListWith_pres
    (f : Heap → JsV → Heap × JsV) (g : Heap → JsV → Option JsonValue)
    (hext_f : ∀ h v, HExt h (f h v).1)
    (hmono : ∀ h h2, HExt h h2 → ∀ v j, g h v = some j → g h2 v = some j)
    (hpres : ∀ h v j, g h v = some j → g (f h v).1 (f h v).2 = some j) :
    ∀ xs h js, mapOption (g h) xs = some js →
      mapOption (g (cloneListWith f h xs).1) (cloneListWith f h xs).2 = some js := by
  intro xs
  induction xs with
  | nil => intro h js hm; simpa [cloneListWith, mapOption] using hm
  | cons x xs ih =>
    intro h js hm
    simp only [mapOption] at hm
    rcases hx : g h x with _ | y
    · rw [hx] at hm; exact absurd hm (by simp)
    · rw [hx] at hm
      rcases hxs : mapOption (g h) xs with _ | ys
      · rw [hxs] at hm; exact absurd hm (by simp)
      · rw [hxs] at hm
        simp only [cloneListWith, mapOption]
        have hy1 : g (f h x).1 (f h x).2 = some y := hpres h x y hx
        have hq : HExt (f h x).1 (cloneListWith f (f h x).1 xs).1 :=
          cloneListWith_hext f hext_f xs (f h x).1
        have hy2 := hmono _ _ hq _ _ hy1
        have hxs1 : mapOption (g (f h x).1) xs = some ys :=
          mapOption_mono (fun v j hv => hmono _ _ (hext_f h x) v j hv) xs ys hxs
        have hxs2 := ih (f h x).1 ys hxs1
        rw [hy2, hxs2]
        exact hm

theorem cloneFieldsWith_pres
    (f : Heap → JsV → Heap × JsV) (g : Heap → JsV → Option JsonValue)
    (hext_f : ∀ h v, HExt h (f h v).1)
    (hmono : ∀ h h2, HExt h h2 → ∀ v j, g h v = some j → g h2 v = some j)
    (hpres : ∀ h v j, g h v = some j → g (f h v).1 (f h v).2 = some j) :
    ∀ xs h js, mapOptionField (g h) xs = some js →
      mapOptionField (g (cloneFieldsWith f h xs).1) (cloneFieldsWith f h xs).2 = some js := by
  intro xs
  induction xs with
  | nil => intro h js hm; simpa [cloneFieldsWith, mapOptionField] using hm
  | cons x xs ih =>
    intro h js hm
    simp only [mapOptionField] at hm
    rcases hx : g h x.2 with _ | y
    · rw [hx] at hm; exact absurd hm (by simp)
    · rw [hx] at hm
      rcases hxs : mapOptionField (g h) xs with _ | ys
      · rw [hxs] at hm; exact absurd hm (by simp)
      · rw [hxs] at hm
        simp only [cloneFieldsWith, mapOptionField]
        have hy1 : g (f h x.2).1 (f h x.2).2 = some y := hpres h x.2 y hx
        have hq : HExt (f h x.2).1 (cloneFieldsWith f (f h x.2).1 xs).1 :=
          cloneFieldsWith_hext f hext_f xs (f h x.2).1
        have hy2 := hmono _ _ hq _ _ hy1
        have hxs1 : mapOptionField (g (f h x.2).1) xs = some ys :=
          mapOptionField_mono (fun v j hv => hmono _ _ (hext_f h x.2) v j hv) xs ys hxs
        have hxs2 := ih (f h x.2).1 ys hxs1
        rw [hy2, hxs2]
        exact hm

theorem serializeJs_cloneDeep : ∀ fuel h v j, serializeJs h fuel v = some j →
    serializeJs (cloneDeepJs fuel h v).1 fuel (cloneDeepJs fuel h v).2 = some j := by
  intro fuel
  induction fuel with
  | zero =>
    intro h v j hj
    cases v with
    | vref a => simp [serializeJs] at hj
    | vnull => exact hj
    | vbool b => exact hj
    | vnum n => exact hj
    | vstr s => exact hj
  | succ n ih =>
    intro h v j hj
    cases v with
    | vnull => exact hj
    | vbool b => exact hj
    | vnum m => exact hj
    | vstr s => exact hj
    | vref a =>
      simp only [serializeJs] at hj
      rcases hf : hfind h a with _ | cell
      · rw [hf] at hj; exact absurd hj (by simp)
      · rw [hf] at hj
        cases cell with
        | harr xs =>
          simp only at hj
          rcases hm : mapOption (serializeJs h n) xs with _ | js
          · rw [hm] at hj; exact absurd hj (by simp)
          · rw [hm] at hj
            simp only [cloneDeepJs, hf, serializeJs, hfind_cons_self]
            have hpres := cloneListWith_pres (cloneDeepJs n) (fun h v => serializeJs h n v)
              (fun h v => cloneDeepJs_hext n h v)
              (fun h h2 he v j hv => serializeJs_hext he n v j hv)
              (fun h v j hv => ih h v j hv) xs h js hm
            have hcf : HExt (cloneListWith (cloneDeepJs n) h xs).1
                ((freshAddr (cloneListWith (cloneDeepJs n) h xs).1,
                  HCell.harr (cloneListWith (cloneDeepJs n) h xs).2) ::
                 (cloneListWith (cloneDeepJs n) h xs).1) :=
              HExt_cons_fresh (Nat.lt_succ_self _)
            have hx2 := mapOption_mono (fun v j hv => serializeJs_hext hcf n v j hv) _ js hpres
            rw [hx2]
            exact hj
        | hobj fs =>
          simp only at hj
          rcases hm : mapOptionField (serializeJs h n) fs with _ | js
          · rw [hm] at hj; exact absurd hj (by simp)
          · rw [hm] at hj
            simp only [cloneDeepJs, hf, serializeJs, hfind_cons_self]
            have hpres := cloneFieldsWith_pres (cloneDeepJs n) (fun h v => serializeJs h n v)
              (fun h v => cloneDeepJs_hext n h v)
              (fun h h2 he v j hv => serializeJs_hext he n v j hv)
              (fun h v j hv => ih h v j hv) fs h js hm
            have hcf : HExt (cloneFieldsWith (cloneDeepJs n) h fs).1
                ((freshAddr (cloneFieldsWith (cloneDeepJs n) h fs).1,
                  HCell.hobj (cloneFieldsWith (cloneDeepJs n) h fs).2) ::
                 (cloneFieldsWith (cloneDeepJs n) h fs).1) :=
              HExt_cons_fresh (Nat.lt_succ_self _)
            have hx2 := mapOptionField_mono (fun v j hv => serializeJs_hext hcf n v j hv) _ js hpres
            rw [hx2]
            exact hj

theorem serializeJs_cloneShallow : ∀ fuel h v j, serializeJs h fuel v = some j →
    serializeJs (cloneShallowJs h v).1 fuel (cloneShallowJs h v).2 = some j := by
  intro fuel h v j hj
  cases v with
  | vnull => exact hj
  | vbool b => exact hj
  | vnum m => exact hj
  | vstr s => exact hj
  | vref a =>
    cases fuel with
    | zero => simp [serializeJs] at hj
    | succ n =>
      simp only [serializeJs] at hj
      rcases hf : hfind h a with _ | cell
      · rw [hf] at hj; exact absurd hj (by simp)
      · rw [hf] at hj
        simp only [cloneShallowJs, hf, serializeJs, hfind_cons_self]
        cases cell with
        | harr xs =>
          simp only at hj ⊢
          rcases hm : mapOption (serializeJs h n) xs with _ | js
          · rw [hm] at hj; exact absurd hj (by simp)
          · rw [hm] at hj
            have hcf : HExt h ((freshAddr h, HCell.harr xs) :: h) :=
              HExt_cons_fresh (Nat.lt_succ_self _)
            rw [mapOption_mono (fun v j hv => serializeJs_hext hcf n v j hv) xs js hm]
            exact hj
        | hobj fs =>
          simp only at hj ⊢
          rcases hm : mapOptionField (serializeJs h n) fs with _ | js
          · rw [hm] at hj; exact absurd hj (by simp)
          · rw [hm] at hj
            have hcf : HExt h ((freshAddr h, HCell.hobj fs) :: h) :=
              HExt_cons_fresh (Nat.lt_succ_self _)
            rw [mapOptionField_mono (fun v j hv => serializeJs_hext hcf n v j hv) fs js hm]
            exact hj

theorem stringify_cloneHeap (level : CloneLevel) (h : Heap) (v : JsV) (j : JsonValue)
    (hj : stringifyJs h v = some j) :
    stringifyJs (cloneHeap level h v).1 (cloneHeap level h v).2 = some j := by
  cases level with
  | none => exact hj
  | shallow =>
    unfold stringifyJs at hj ⊢
    exact serializeJs_fuel_mono (h.length + 1) ((cloneShallowJs h v).1.length + 1) _ j
      (Nat.succ_le_succ (cloneShallowJs_len h v))
      (serializeJs_cloneShallow (h.length + 1) h v j hj)
  | deep =>
    unfold stringifyJs at hj ⊢
    exact serializeJs_fuel_mono (h.length + 1) ((cloneDeepJs (h.length + 1) h v).1.length + 1) _ j
      (Nat.succ_le_succ (cloneDeepJs_len (h.length + 1) h v))
      (serializeJs_cloneDeep (h.length + 1) h v j hj)

/-!
Claim theorems.
-/

/-- C1: for every string key k and JSON value v, set(k, v) succeeds
returning v and a following get(k) with no path returns exactly v (deep
equality is equality of pure JSON trees, so no clone level or proxy
wrapper can interfere) and leaves the filesystem unchanged. -/
theorem C1_set_get_roundtrip (o : Options) (s : State) (k : String) (v : JsonValue) :
    (JsonDB.set o s (.kstr k) v none).1 = .ok v ∧
    JsonDB.get o (JsonDB.set o s (.kstr k) v none).2 (.kstr k) none
      = (.ok (some v), (JsonDB.set o s (.kstr k) v none).2) := by
  refine ⟨rfl, ?_⟩
  have hl := set_lookup_self o s k v
  show JsonDB.getStr o _ k none = _
  unfold JsonDB.getStr
  rw [JsonDB.readDoc_of_json o _ k v hl]

/-- C4: when the backing file of a key is missing or holds invalid bytes,
get(key) does not fail: it returns the empty object, writes the empty
object document to the path, and makes sure the containing directory is
present in the filesystem. -/
theorem C4_self_healing_get (o : Options) (s : State) (k : String)
    (h : s.lookupFile (JsonDB.getPath o k) = none ∨
         s.lookupFile (JsonDB.getPath o k) = some .corrupt) :
    JsonDB.get o s (.kstr k) none
      = (.ok (some (.obj [])), JsonDB.heal s (JsonDB.getPath o k)) ∧
    (JsonDB.heal s (JsonDB.getPath o k)).lookupFile (JsonDB.getPath o k)
      = some (.json (.obj [])) ∧
    (JsonDB.heal s (JsonDB.getPath o k)).dirs.contains
      (JsonDB.dirOf (JsonDB.getPath o k)) = true := by
  refine ⟨?_, ?_, ?_⟩
  · show JsonDB.getStr o s k none = _
    unfold JsonDB.getStr JsonDB.readDoc
    rcases h with h | h <;> rw [h]
  · show findFile (setFileList s.files _ _) _ = _
    exact findFile_setFileList_self _ _ _
  · by_cases hm : JsonDB.dirOf (JsonDB.getPath o k) ∈ s.dirs <;>
      simp [JsonDB.heal, hm]

/-- C5: set raises the invalid-key error on a nil key and on a numeric
(non-string) key, before touching the filesystem, while get with a nil
key returns the null sentinel instead of erroring. -/
theorem C5_key_asymmetry :
    (∀ (o : Options) (s : State) (v : JsonValue) (p : Option String),
      JsonDB.set o s .knull v p = (.error .invalidKey, s)) ∧
    (∀ (o : Options) (s : State) (n : Int) (v : JsonValue) (p : Option String),
      JsonDB.set o s (.knum n) v p = (.error .invalidKey, s)) ∧
    (∀ (o : Options) (s : State) (p : Option String),
      JsonDB.get o s .knull p = (.ok (some .null), s)) :=
  ⟨fun _ _ _ _ => rfl, fun _ _ _ _ _ => rfl, fun _ _ _ => rfl⟩

/-- C6: has with no path on a stringifiable key answers exactly whether the
backing file exists and returns the filesystem unchanged: it performs no
write and no initialization. -/
theorem C6_has_checks_existence_only (o : Options) (s : State) (key : JsKey) (ks : String)
    (h : key.strOf? = some ks) :
    JsonDB.has o s key none
      = (.ok (s.lookupFile (JsonDB.getPath o ks)).isSome, s) := by
  unfold JsonDB.has
  rw [h]

/-- C10: has with a nil key fails with a runtime type error (the
stringification of the nil key), which is a different outcome from false,
from the null sentinel of get, and from the invalid-key error of set. -/
theorem C10_has_nil_key_type_error :
    (∀ (o : Options) (s : State) (p : Option String),
      JsonDB.has o s .knull p = (.error .typeError, s)) ∧
    DBErr.typeError ≠ DBErr.invalidKey :=
  ⟨fun _ _ _ => rfl, by decide⟩

/-- C2: evaluation of push with a path at its failing inputs.  On the
document with an array at path "a", push(k, 2, "a") raises a TypeError
instead of appending (the code looks up the path a second time inside the
already-resolved sub-value).  On a document where that double lookup
happens to succeed, the whole document is replaced by the modified
sub-value, destroying everything outside the path instead of preserving
it. -/
theorem C2_push_path_bug :
    (JsonDB.push defaultOptions
      { files := [("./data/k.json", .json (.obj [("a", .arr [.num 1])]))],
        dirs := ["./data"] }
      (.kstr "k") (.num 2) (some "a")).1 = .error .typeError ∧
    (JsonDB.push defaultOptions
      { files := [("./data/k.json", .json (.obj [("a", .obj [("a", .arr [.num 1])])]))],
        dirs := ["./data"] }
      (.kstr "k") (.num 2) (some "a")).2.lookupFile "./data/k.json"
      = some (.json (.obj [("a", .arr [.num 1, .num 2])])) :=
  ⟨rfl, rfl⟩

/-- C7: when the addressed location already holds a stored value (the file
parses to a document; with a path, the path is present in it), ensure with
a non-nil default returns the currently stored value and returns the
filesystem completely unchanged: the default is never applied over
existing data. -/
theorem C7_ensure_no_overwrite (o : Options) (s : State) (k : String) (d doc : JsonValue)
    (p? : Option String)
    (hd : jsIsNil (some d) = false)
    (hdoc : s.lookupFile (JsonDB.getPath o k) = some (.json doc))
    (hloc : ∀ p, p? = some p → (jsGet doc p).isSome = true) :
    JsonDB.ensure o s (.kstr k) (some d) p? = (.ok (valueAtLoc doc p?), s) := by
  have hnotnil : ¬(jsIsNil (some d) = true) := by simp [hd]
  cases p? with
  | none =>
    have hget : JsonDB.get o s (.kstr k) none = (.ok (some doc), s) := by
      show JsonDB.getStr o s k none = _
      unfold JsonDB.getStr
      rw [JsonDB.readDoc_of_json o s k doc hdoc]
    have hhas : JsonDB.has o s (.kstr k) none = (.ok true, s) := by
      unfold JsonDB.has
      simp [JsKey.strOf?, hdoc]
    unfold JsonDB.ensure
    rw [if_neg hnotnil]
    rw [hhas]
    exact hget
  | some q =>
    have hget : JsonDB.get o s (.kstr k) (some q) = (.ok (jsGet doc q), s) := by
      show JsonDB.getStr o s k (some q) = _
      unfold JsonDB.getStr
      rw [JsonDB.readDoc_of_json o s k doc hdoc]
    have hhas : JsonDB.has o s (.kstr k) (some q) = (.ok true, s) := by
      unfold JsonDB.has
      simp only [JsKey.strOf?]
      rw [JsonDB.readDoc_of_json o s k doc hdoc]
      simp [jsHas, hloc q rfl]
    unfold JsonDB.ensure
    rw [if_neg hnotnil]
    dsimp only
    rw [hhas]
    exact hget

/-- C8: the operator table of math: every add/sub/mult alias (word, long
word and symbol) denotes the corresponding integer operation and the mod
aliases denote the truncated remainder of the host; operationally, on a
key holding a number at the addressed location, math reads that base,
applies the table and writes the result back at the same location, so
that a following get at the location yields the result (in particular
set(k, 10); math(k, "add", 5); get(k) = 15). -/
theorem C8_math_operator_table :
    (∀ b m : Int, JsonDB.mathOp b "add" m = .val (b + m)) ∧
    (∀ b m : Int, JsonDB.mathOp b "addition" m = .val (b + m)) ∧
    (∀ b m : Int, JsonDB.mathOp b "+" m = .val (b + m)) ∧
    (∀ b m : Int, JsonDB.mathOp b "sub" m = .val (b - m)) ∧
    (∀ b m : Int, JsonDB.mathOp b "subtract" m = .val (b - m)) ∧
    (∀ b m : Int, JsonDB.mathOp b "-" m = .val (b - m)) ∧
    (∀ b m : Int, JsonDB.mathOp b "mult" m = .val (b * m)) ∧
    (∀ b m : Int, JsonDB.mathOp b "multiply" m = .val (b * m)) ∧
    (∀ b m : Int, JsonDB.mathOp b "*" m = .val (b * m)) ∧
    (∀ b m : Int, m ≠ 0 → JsonDB.mathOp b "mod" m = .val (Int.tmod b m)) ∧
    (∀ b m : Int, m ≠ 0 → JsonDB.mathOp b "modulo" m = .val (Int.tmod b m)) ∧
    (∀ b m : Int, m ≠ 0 → JsonDB.mathOp b "%" m = .val (Int.tmod b m)) ∧
    (∀ (o : Options) (s : State) (k : String) (p? : Option String)
       (doc : JsonValue) (base m r : Int) (op : String),
      s.lookupFile (JsonDB.getPath o k) = some (.json doc) →
      valueAtLoc doc p? = some (.num base) →
      JsonDB.mathOp base op m = .val r →
      (JsonDB.math o s (.kstr k) op m p?).1 = .ok (numWrittenAt doc p? r) ∧
      ((JsonDB.math o s (.kstr k) op m p?).2).lookupFile (JsonDB.getPath o k)
        = some (.json (numWrittenAt doc p? r)) ∧
      (JsonDB.get o (JsonDB.math o s (.kstr k) op m p?).2 (.kstr k) p?).1
        = .ok (some (.num r))) := by
  refine ⟨fun b m => rfl, fun b m => rfl, fun b m => rfl,
    fun b m => rfl, fun b m => rfl, fun b m => rfl,
    fun b m => rfl, fun b m => rfl, fun b m => rfl,
    fun b m hm => by simp [JsonDB.mathOp, hm],
    fun b m hm => by simp [JsonDB.mathOp, hm],
    fun b m hm => by simp [JsonDB.mathOp, hm], ?_⟩
  intro o s k p? doc base m r op hdoc hbase hop
  have hget : JsonDB.get o s (.kstr k) p? = (.ok (valueAtLoc doc p?), s) := by
    show JsonDB.getStr o s k p? = _
    unfold JsonDB.getStr
    rw [JsonDB.readDoc_of_json o s k doc hdoc]
    cases p? <;> rfl
  have hset : JsonDB.set o s (.kstr k) (.num r) p? = (.ok (numWrittenAt doc p? r), { s with files := setFileList s.files (JsonDB.getPath o k) (.json (numWrittenAt doc p? r)) }) := by
    unfold JsonDB.set
    cases p? with
    | none =>
      dsimp only
      rw [JsonDB.readDoc_of_json o s k doc hdoc]
      rfl
    | some q =>
      have hcont := jsGet_container (show jsGet doc q = some (.num base) from hbase)
      have hmatch : JsonDB.nullGuard doc = doc := by
        cases doc <;> first | rfl | simp [JsonValue.isContainer] at hcont
      dsimp only
      rw [JsonDB.readDoc_of_json o s k doc hdoc]
      dsimp only
      rw [hmatch]
      rfl
  have hmath : JsonDB.math o s (.kstr k) op m p? = (.ok (numWrittenAt doc p? r), { s with files := setFileList s.files (JsonDB.getPath o k) (.json (numWrittenAt doc p? r)) }) := by
    unfold JsonDB.math
    rw [hget]
    dsimp only
    rw [hbase]
    dsimp only
    rw [hop]
    exact hset
  have hl2 : (({ s with files := setFileList s.files (JsonDB.getPath o k) (.json (numWrittenAt doc p? r)) } : State)).lookupFile (JsonDB.getPath o k) = some (.json (numWrittenAt doc p? r)) := findFile_setFileList_self _ _ _
  refine ⟨by rw [hmath], ?_, ?_⟩
  · rw [hmath]
    exact hl2
  · rw [hmath]
    show (JsonDB.getStr o _ k p?).1 = _
    unfold JsonDB.getStr
    rw [JsonDB.readDoc_of_json o _ k _ hl2]
    cases p? with
    | none => rfl
    | some q =>
      dsimp only [numWrittenAt]
      exact congrArg Except.ok (jsGet_jsSet doc q (.num base) (.num r) hbase)

theorem math_err_state (o : Options) (s : State) (key : JsKey) (op2 : String) (m : Int)
    (p : Option String) (res : Except DBErr JsonValue × State) (e : DBErr)
    (heq : JsonDB.math o s key op2 m p = res) (herr : res.1 = .error e) :
    res.2 = s ∨ ∃ ks, res.2 = JsonDB.heal s (JsonDB.getPath o ks) := by
  unfold JsonDB.math at heq
  obtain ⟨d, s2, hg, hst⟩ := get_eq o s key p
  rw [hg] at heq
  dsimp only at heq
  rcases d with _ | dv
  · dsimp only at heq; rw [← heq]; exact hst
  · cases dv with
    | num base =>
      dsimp only at heq
      rcases hmo : JsonDB.mathOp base op2 m with r | _ | _
      · rw [hmo] at heq
        dsimp only at heq
        rcases hsr : (JsonDB.set o s2 key (.num r) p).1 with e1 | a
        · have h2 : res.2 = (JsonDB.set o s2 key (.num r) p).2 := by rw [← heq]
          rw [h2, set_err_state o s2 key (.num r) p e1 hsr]
          exact hst
        · rw [← heq] at herr; rw [hsr] at herr; simp at herr
      · rw [hmo] at heq
        dsimp only at heq
        rcases hsr : (JsonDB.set o s2 key .null p).1 with e1 | a
        · have h2 : res.2 = (JsonDB.set o s2 key .null p).2 := by rw [← heq]
          rw [h2, set_err_state o s2 key .null p e1 hsr]
          exact hst
        · rw [← heq] at herr; rw [hsr] at herr; simp at herr
      · rw [hmo] at heq
        dsimp only at heq
        rw [← heq]
        exact hst
    | null => dsimp only at heq; rw [← heq]; exact hst
    | bool b => dsimp only at heq; rw [← heq]; exact hst
    | str t => dsimp only at heq; rw [← heq]; exact hst
    | arr xs => dsimp only at heq; rw [← heq]; exact hst
    | obj fs => dsimp only at heq; rw [← heq]; exact hst

theorem push_err_state (o : Options) (s : State) (key : JsKey) (v : JsonValue)
    (p : Option String) (res : Except DBErr (Option JsonValue) × State) (e : DBErr)
    (heq : JsonDB.push o s key v p = res) (herr : res.1 = .error e) :
    res.2 = s ∨ ∃ ks, res.2 = JsonDB.heal s (JsonDB.getPath o ks) := by
  unfold JsonDB.push at heq
  obtain ⟨d, s2, hg, hst⟩ := get_eq o s key p
  rw [hg] at heq
  dsimp only at heq
  cases p with
  | some q =>
    dsimp only at heq
    rcases hga : jsGetOpt d q with _ | dv
    · rw [hga] at heq; dsimp only at heq; rw [← heq]; exact hst
    · rw [hga] at heq
      cases dv with
      | arr xs =>
        dsimp only at heq
        rcases hso : jsSetOpt d q (JsonValue.arr (xs ++ [v])) with _ | d2
        · rw [hso] at heq; dsimp only at heq; rw [← heq]; exact hst
        · rw [hso] at heq
          dsimp only at heq
          rcases hsr : (JsonDB.set o s2 key d2 none).1 with e1 | a
          · rw [hsr] at heq
            dsimp only at heq
            have h2 : res.2 = (JsonDB.set o s2 key d2 none).2 := by rw [← heq]
            rw [h2, set_err_state o s2 key d2 none e1 hsr]
            exact hst
          · rw [hsr] at heq; dsimp only at heq; rw [← heq] at herr; simp at herr
      | null => dsimp only at heq; rw [← heq]; exact hst
      | bool b => dsimp only at heq; rw [← heq]; exact hst
      | num n => dsimp only at heq; rw [← heq]; exact hst
      | str t => dsimp only at heq; rw [← heq]; exact hst
      | obj fs => dsimp only at heq; rw [← heq]; exact hst
  | none =>
    dsimp only at heq
    rcases d with _ | dv
    · dsimp only at heq; rw [← heq]; exact hst
    · cases dv with
      | arr xs =>
        dsimp only at heq
        rcases hsr : (JsonDB.set o s2 key (JsonValue.arr (xs ++ [v])) none).1 with e1 | a
        · rw [hsr] at heq
          dsimp only at heq
          have h2 : res.2 = (JsonDB.set o s2 key (JsonValue.arr (xs ++ [v])) none).2 := by
            rw [← heq]
          rw [h2, set_err_state o s2 key (JsonValue.arr (xs ++ [v])) none e1 hsr]
          exact hst
        · rw [hsr] at heq; dsimp only at heq; rw [← heq] at herr; simp at herr
      | null => dsimp only at heq; rw [← heq]; exact hst
      | bool b => dsimp only at heq; rw [← heq]; exact hst
      | num n => dsimp only at heq; rw [← heq]; exact hst
      | str t => dsimp only at heq; rw [← heq]; exact hst
      | obj fs => dsimp only at heq; rw [← heq]; exact hst

theorem ensure_err_state (o : Options) (s : State) (key : JsKey) (dflt : Option JsonValue)
    (p : Option String) (res : Except DBErr (Option JsonValue) × State) (e : DBErr)
    (heq : JsonDB.ensure o s key dflt p = res) (herr : res.1 = .error e) :
    res.2 = s ∨ ∃ ks, res.2 = JsonDB.heal s (JsonDB.getPath o ks) := by
  by_cases hnil : jsIsNil dflt = true
  · unfold JsonDB.ensure at heq
    rw [if_pos hnil] at heq
    left
    rw [← heq]
  · unfold JsonDB.ensure at heq
    rw [if_neg hnil] at heq
    rcases dflt with _ | dd
    · simp [jsIsNil] at hnil
    · cases p with
      | some q =>
        dsimp only at heq
        rcases hhas : JsonDB.has o s key (some q) with ⟨hr, s1⟩
        rw [hhas] at heq
        have hs1 : (JsonDB.has o s key (some q)).2 = s1 := by rw [hhas]
        have hstates : s1 = s ∨ ∃ ks, s1 = JsonDB.heal s (JsonDB.getPath o ks) := by
          rw [← hs1]; exact has_state o s key (some q)
        cases hr with
        | error e1 =>
          dsimp only at heq
          have hk := has_err o s key (some q) e1 (by rw [hhas])
          have hs : s1 = s := by rw [← hs1, hk.2]
          left
          rw [← heq]
          exact hs
        | ok b =>
          cases b with
          | true =>
            dsimp only at heq
            obtain ⟨d2, s2, hg, _⟩ := get_eq o s1 key (some q)
            rw [hg] at heq
            rw [← heq] at herr
            simp at herr
          | false =>
            dsimp only at heq
            rcases hsr : (JsonDB.set o s1 key dd (some q)).1 with e1 | a
            · rw [hsr] at heq
              dsimp only at heq
              have h2 : res.2 = (JsonDB.set o s1 key dd (some q)).2 := by rw [← heq]
              rw [h2, set_err_state o s1 key dd (some q) e1 hsr]
              exact hstates
            · rw [hsr] at heq; dsimp only at heq; rw [← heq] at herr; simp at herr
      | none =>
        dsimp only at heq
        rcases hhas : JsonDB.has o s key none with ⟨hr, s1⟩
        rw [hhas] at heq
        have hs1 : (JsonDB.has o s key none).2 = s1 := by rw [hhas]
        have hstates : s1 = s ∨ ∃ ks, s1 = JsonDB.heal s (JsonDB.getPath o ks) := by
          rw [← hs1]; exact has_state o s key none
        cases hr with
        | error e1 =>
          dsimp only at heq
          have hk := has_err o s key none e1 (by rw [hhas])
          have hs : s1 = s := by rw [← hs1, hk.2]
          left
          rw [← heq]
          exact hs
        | ok b =>
          cases b with
          | true =>
            dsimp only at heq
            obtain ⟨d2, s2, hg, _⟩ := get_eq o s1 key none
            rw [hg] at heq
            rw [← heq] at herr
            simp at herr
          | false =>
            dsimp only at heq
            rcases hsr : (JsonDB.set o s1 key (JsonDB.clone o.cloneLevel dd) none).1 with e1 | a
            · rw [hsr] at heq
              dsimp only at heq
              have h2 : res.2 = (JsonDB.set o s1 key (JsonDB.clone o.cloneLevel dd) none).2 := by
                rw [← heq]
              rw [h2, set_err_state o s1 key (JsonDB.clone o.cloneLevel dd) none e1 hsr]
              exact hstates
            · rw [hsr] at heq; dsimp only at heq; rw [← heq] at herr; simp at herr

/-- C9 counterexample: a failing operation can leave the disk changed.
push on a key with no backing file raises a TypeError (pushing onto the
empty object), yet the filesystem is no longer the one before the call:
the self-healing read inside push already created the file with the empty
document, so the failed operation did perform a write. -/
theorem C9_error_atomicity_counterexample :
    (JsonDB.push defaultOptions emptyState (.kstr "k") (.num 1) none).1
      = .error .typeError ∧
    (JsonDB.push defaultOptions emptyState (.kstr "k") (.num 1) none).2 ≠ emptyState :=
  ⟨rfl, fun h => absurd (congrArg (fun st => st.files.length) h) (by decide)⟩

/-- C9 amended: every operation that fails leaves the on-disk state
unchanged except possibly for the self-healing initialization performed by
its internal read, which may reset the accessed key's file to the empty
document (creating its directory); no other partial write is possible on
failure. -/
theorem C9_error_atomicity_amended (o : Options) (op : DBOp) (s : State) (e : DBErr)
    (h : (runOp o op s).1 = some e) :
    (runOp o op s).2 = s ∨
      ∃ ks, (runOp o op s).2 = JsonDB.heal s (JsonDB.getPath o ks) := by
  cases op with
  | doGet k p =>
    exfalso
    obtain ⟨d, s2, hg, _⟩ := get_eq o s k p
    simp only [runOp] at h
    rw [hg] at h
    simp [errOf] at h
  | doSet k v p =>
    left
    simp only [runOp] at h ⊢
    rcases hs : (JsonDB.set o s k v p).1 with e2 | d
    · exact set_err_state o s k v p e2 hs
    · rw [hs] at h; simp [errOf] at h
  | doHas k p =>
    left
    simp only [runOp] at h ⊢
    rcases hs : (JsonDB.has o s k p).1 with e2 | b
    · exact (has_err o s k p e2 hs).2
    · rw [hs] at h; simp [errOf] at h
  | doEnsure k d p =>
    simp only [runOp] at h ⊢
    rcases hs : (JsonDB.ensure o s k d p).1 with e2 | d2
    · exact ensure_err_state o s k d p (JsonDB.ensure o s k d p) e2 rfl hs
    · rw [hs] at h; simp [errOf] at h
  | doPush k v p =>
    simp only [runOp] at h ⊢
    rcases hs : (JsonDB.push o s k v p).1 with e2 | d2
    · exact push_err_state o s k v p (JsonDB.push o s k v p) e2 rfl hs
    · rw [hs] at h; simp [errOf] at h
  | doMath k op2 m p =>
    simp only [runOp] at h ⊢
    rcases hs : (JsonDB.math o s k op2 m p).1 with e2 | d2
    · exact math_err_state o s k op2 m p (JsonDB.math o s k op2 m p) e2 rfl hs
    · rw [hs] at h; simp [errOf] at h

theorem set_kstr_ok (o : Options) (s : State) (ks : String) (v : JsonValue)
    (p : Option String) : ∃ d2, (JsonDB.set o s (.kstr ks) v p).1 = .ok d2 := by
  unfold JsonDB.set
  cases p <;> exact ⟨_, rfl⟩

/-- C3: ensure on a missing location stores the serialized value of the
default (the clone of the configured level serializes to the same tree,
proved for all three levels), and afterwards no mutation of the caller
heap — in particular none of the object passed as the default — can change
the stored files: with a path the resulting filesystem is exactly a set of
the serialized copy, with no path the key's file holds the serialized
default.  This holds for every clone level, hence in particular for
"deep". -/
theorem C3_ensure_clone_isolation (o : Options) (w : World) (k : String) (d : JsV)
    (p? : Option String) (dv : JsonValue)
    (hser : stringifyJs w.heap d = some dv)
    (hnn : d ≠ .vnull)
    (hmiss : match p? with
      | none => w.db.lookupFile (JsonDB.getPath o k) = none
      | some p => (JsonDB.has o w.db (.kstr k) (some p)).1 = .ok false) :
    (∀ a f hv, (mutateWorld (ensureH o w (.kstr k) d p?).2 a f hv).db
      = (ensureH o w (.kstr k) d p?).2.db) ∧
    (match p? with
     | none => (ensureH o w (.kstr k) d p?).2.db.lookupFile (JsonDB.getPath o k)
         = some (.json dv)
     | some p => (ensureH o w (.kstr k) d p?).2.db
         = (JsonDB.set o (JsonDB.has o w.db (.kstr k) (some p)).2 (.kstr k) dv (some p)).2) := by
  have hn : jsvIsNil d = false := by
    cases d with
    | vnull => exact absurd rfl hnn
    | vbool b => rfl
    | vnum n => rfl
    | vstr t => rfl
    | vref a => rfl
  refine ⟨fun a f hv => rfl, ?_⟩
  cases p? with
  | none =>
    have hhas : JsonDB.has o w.db (.kstr k) none = (.ok false, w.db) := by
      unfold JsonDB.has
      simp [JsKey.strOf?, hmiss]
    have hc : stringifyJs (cloneHeap o.cloneLevel w.heap d).1
        (cloneHeap o.cloneLevel w.heap d).2 = some dv :=
      stringify_cloneHeap o.cloneLevel w.heap d dv hser
    have hens : ensureH o w (.kstr k) d none = (.ok (), { db := (JsonDB.set o w.db (.kstr k) dv none).2, heap := (cloneHeap o.cloneLevel w.heap d).1 }) := by
      unfold ensureH
      rw [if_neg (by simp [hn])]
      dsimp only
      rw [hhas]
      dsimp only
      rw [hc]
      dsimp only
      obtain ⟨d2, hok⟩ := set_kstr_ok o w.db k dv none
      rw [hok]
    rw [hens]
    exact set_lookup_self o w.db k dv
  | some p =>
    dsimp only at hmiss ⊢
    rcases hhas2 : JsonDB.has o w.db (.kstr k) (some p) with ⟨hr, s1⟩
    have hfalse : hr = .ok false := by
      rw [hhas2] at hmiss
      exact hmiss
    subst hfalse
    have hens : ensureH o w (.kstr k) d (some p) = (.ok (), { db := (JsonDB.set o s1 (.kstr k) dv (some p)).2, heap := w.heap }) := by
      unfold ensureH
      rw [if_neg (by simp [hn])]
      dsimp only
      rw [hhas2]
      dsimp only
      rw [hser]
      dsimp only
      obtain ⟨d2, hok⟩ := set_kstr_ok o s1 k dv (some p)
      rw [hok]
    rw [hens]

/-- Witness for C4 at a concrete missing file: get on a fresh key heals. -/
theorem C4_self_healing_get_witness :
    (emptyState.lookupFile (JsonDB.getPath defaultOptions "k") = none ∨
     emptyState.lookupFile (JsonDB.getPath defaultOptions "k") = some .corrupt) ∧
    JsonDB.get defaultOptions emptyState (.kstr "k") none
      = (.ok (some (.obj [])), JsonDB.heal emptyState (JsonDB.getPath defaultOptions "k")) ∧
    (JsonDB.heal emptyState (JsonDB.getPath defaultOptions "k")).dirs.contains
      (JsonDB.dirOf (JsonDB.getPath defaultOptions "k")) = true :=
  ⟨.inl rfl, (C4_self_healing_get defaultOptions emptyState "k" (.inl rfl)).1,
    (C4_self_healing_get defaultOptions emptyState "k" (.inl rfl)).2.2⟩

/-- Witness for C6 at a concrete key and the empty filesystem. -/
theorem C6_has_checks_existence_only_witness :
    JsKey.strOf? (.kstr "k") = some "k" ∧
    JsonDB.has defaultOptions emptyState (.kstr "k") none
      = (.ok (emptyState.lookupFile (JsonDB.getPath defaultOptions "k")).isSome, emptyState) :=
  ⟨rfl, C6_has_checks_existence_only defaultOptions emptyState (.kstr "k") "k" rfl⟩

/-- Witness for C7: ensure over the stored document with field a = 1 and a
default with a = 99 returns the stored document and changes nothing. -/
theorem C7_ensure_no_overwrite_witness :
    jsIsNil (some (JsonValue.obj [("a", JsonValue.num 99)])) = false ∧
    ({ files := [("./data/k.json", FileContent.json (JsonValue.obj [("a", JsonValue.num 1)]))], dirs := ["./data"] } : State).lookupFile (JsonDB.getPath defaultOptions "k") = some (.json (JsonValue.obj [("a", JsonValue.num 1)])) ∧
    JsonDB.ensure defaultOptions { files := [("./data/k.json", FileContent.json (JsonValue.obj [("a", JsonValue.num 1)]))], dirs := ["./data"] } (.kstr "k") (some (JsonValue.obj [("a", JsonValue.num 99)])) none = (.ok (valueAtLoc (JsonValue.obj [("a", JsonValue.num 1)]) none), { files := [("./data/k.json", FileContent.json (JsonValue.obj [("a", JsonValue.num 1)]))], dirs := ["./data"] }) :=
  ⟨rfl, rfl,
    C7_ensure_no_overwrite defaultOptions
      { files := [("./data/k.json", FileContent.json (JsonValue.obj [("a", JsonValue.num 1)]))], dirs := ["./data"] }
      "k" (JsonValue.obj [("a", JsonValue.num 99)]) (JsonValue.obj [("a", JsonValue.num 1)])
      none rfl rfl (fun _p hp => nomatch hp)⟩

/-- Witness for C8: the example of the spec, set(k, 10) then math(k, add, 5)
leaves 15 stored, plus a concrete instance of the mod row. -/
theorem C8_math_operator_table_witness :
    JsonDB.mathOp 10 "add" 5 = .val 15 ∧
    JsonDB.mathOp 7 "mod" 3 = .val 1 ∧
    ((JsonDB.math defaultOptions { files := [("./data/k.json", FileContent.json (JsonValue.num 10))], dirs := ["./data"] } (.kstr "k") "add" 5 none).1 = .ok (numWrittenAt (JsonValue.num 10) none 15) ∧
     ((JsonDB.math defaultOptions { files := [("./data/k.json", FileContent.json (JsonValue.num 10))], dirs := ["./data"] } (.kstr "k") "add" 5 none).2).lookupFile (JsonDB.getPath defaultOptions "k") = some (.json (numWrittenAt (JsonValue.num 10) none 15)) ∧
     (JsonDB.get defaultOptions (JsonDB.math defaultOptions { files := [("./data/k.json", FileContent.json (JsonValue.num 10))], dirs := ["./data"] } (.kstr "k") "add" 5 none).2 (.kstr "k") none).1 = .ok (some (JsonValue.num 15))) :=
  ⟨rfl,
   C8_math_operator_table.2.2.2.2.2.2.2.2.2.1 7 3 (by decide),
   C8_math_operator_table.2.2.2.2.2.2.2.2.2.2.2.2 defaultOptions
     { files := [("./data/k.json", FileContent.json (JsonValue.num 10))], dirs := ["./data"] }
     "k" none (JsonValue.num 10) 10 5 15 "add" rfl rfl rfl⟩

/-- Witness for C9 amended: a concrete failing operation (set with a nil
key) leaves the filesystem within the allowed states. -/
theorem C9_error_atomicity_amended_witness :
    (runOp defaultOptions (.doSet .knull .null none) emptyState).1 = some .invalidKey ∧
    ((runOp defaultOptions (.doSet .knull .null none) emptyState).2 = emptyState ∨
     ∃ ks, (runOp defaultOptions (.doSet .knull .null none) emptyState).2
       = JsonDB.heal emptyState (JsonDB.getPath defaultOptions ks)) :=
  ⟨rfl, C9_error_atomicity_amended defaultOptions (.doSet .knull .null none) emptyState
    .invalidKey rfl⟩

/-- Witness for C3 at a concrete one-object heap with deep cloning: the
default serializes, ensure stores the serialization, and a concrete later
heap mutation of the default object leaves the stored files untouched. -/
theorem C3_ensure_clone_isolation_witness :
    stringifyJs [(0, HCell.hobj [("x", JsV.vnum 1)])] (.vref 0) = some (JsonValue.obj [("x", JsonValue.num 1)]) ∧
    JsV.vref 0 ≠ JsV.vnull ∧
    emptyState.lookupFile (JsonDB.getPath defaultOptions "k") = none ∧
    (mutateWorld (ensureH defaultOptions { db := emptyState, heap := [(0, HCell.hobj [("x", JsV.vnum 1)])] } (.kstr "k") (.vref 0) none).2 0 "x" (JsV.vnum 5)).db = (ensureH defaultOptions { db := emptyState, heap := [(0, HCell.hobj [("x", JsV.vnum 1)])] } (.kstr "k") (.vref 0) none).2.db ∧
    (ensureH defaultOptions { db := emptyState, heap := [(0, HCell.hobj [("x", JsV.vnum 1)])] } (.kstr "k") (.vref 0) none).2.db.lookupFile (JsonDB.getPath defaultOptions "k") = some (.json (JsonValue.obj [("x", JsonValue.num 1)])) :=
  ⟨rfl, by decide, rfl,
   (C3_ensure_clone_isolation defaultOptions
     { db := emptyState, heap := [(0, HCell.hobj [("x", JsV.vnum 1)])] }
     "k" (.vref 0) none (JsonValue.obj [("x", JsonValue.num 1)])
     rfl (by decide) rfl).1 0 "x" (JsV.vnum 5),
   (C3_ensure_clone_isolation defaultOptions
     { db := emptyState, heap := [(0, HCell.hobj [("x", JsV.vnum 1)])] }
     "k" (.vref 0) none (JsonValue.obj [("x", JsonValue.num 1)])
     rfl (by decide) rfl).2⟩
